import Mathlib

/-!
Verification of the text-processing and scoring pipeline of the
AI-News-Summarizer-and-Sentiment-Analyzer repository
(src/ai-services/ai_services.py and src/ai-services/app.py).

The Python source is shallowly embedded: each pipeline function is a Lean
function over `String` / `List Char`, strings are idealized to their ASCII
fragment (Python `\s`, `\w`, `.upper()`, `.lower()` are modelled on ASCII),
machine floats appearing only as model confidences are modelled by `ℚ`
(exact arithmetic), and the external model collaborators (the transformers
pipelines, spaCy, the NLTK tokenizer and stopword list) are passed in as
explicit function/data parameters, as the specification's §6 prescribes for
collaborators.  Python exceptions raised by a collaborator are modelled by
`Except`.
-/

/-- ASCII model of Python's regex class `\s` (space, tab, newline, carriage
return, vertical tab, form feed). -/
def isSpace (c : Char) : Bool :=
  c = ' ' || c = '\t' || c = '\n' || c = '\r' || c = '\x0b' || c = '\x0c'

/-- Helper for `wordsL`: accumulates the current word (reversed) while
scanning; models the maximal-nonspace-run decomposition used by Python's
`str.split()` with no arguments. -/
def wsAux : List Char → List Char → List (List Char)
  | [], acc => if acc.isEmpty then [] else [acc.reverse]
  | c :: cs, acc =>
    if isSpace c then
      (if acc.isEmpty then wsAux cs [] else acc.reverse :: wsAux cs [])
    else wsAux cs (c :: acc)

/-- The whitespace-separated words of a character list: Python `str.split()`. -/
def wordsL (l : List Char) : List (List Char) := wsAux l []

/-- Python `str.split()` on a `String`. -/
def pySplit (s : String) : List String := (wordsL s.data).map (fun w => ⟨w⟩)

/-- Python `str.strip()` on a character list: drop leading and trailing
whitespace. -/
def pyStripL (l : List Char) : List Char :=
  ((l.dropWhile isSpace).reverse.dropWhile isSpace).reverse

/-- Python `str.strip()`. -/
def pyStrip (s : String) : String := ⟨pyStripL s.data⟩

/-- Python `' '.join(ws)`. -/
def joinWords (ws : List String) : String := String.intercalate " " ws

/-- ASCII model of Python `str.upper()`. -/
def pyUpper (s : String) : String := ⟨s.data.map Char.toUpper⟩

/-- ASCII model of Python `str.lower()`. -/
def pyLower (s : String) : String := ⟨s.data.map Char.toLower⟩

/-- Stable insertion (descending by `key`) used by `sortByDesc`. -/
def insertByDesc {α : Type} (key : α → Nat) (x : α) : List α → List α
  | [] => [x]
  | y :: ys => if key y ≤ key x then x :: y :: ys else y :: insertByDesc key x ys

/-- Stable descending sort by a natural-number key.  Models Python's stable
`list.sort(key=..., reverse=True)` and `heapq.nlargest` (used by
`Counter.most_common`): a stable sort's output is uniquely determined by the
key order and stability, so this insertion-sort formulation is extensionally
faithful to Timsort. -/
def sortByDesc {α : Type} (key : α → Nat) : List α → List α
  | [] => []
  | x :: xs => insertByDesc key x (sortByDesc key xs)

/-! ## SentimentAnalyzer (ai_services.py lines 223-335) -/

/-- Result dictionary returned by `SentimentAnalyzer.analyze`:
`{"label": ..., "score": ..., "sentiment_score": ...}`. -/
structure SentimentResult where
  label : String
  score : ℚ
  sentiment_score : ℚ
deriving DecidableEq

/-- The NEUTRAL default result `{label: NEUTRAL, score: 0.5, sentiment_score: 0}`
returned on empty input, missing collaborator, short text, or collaborator
error. -/
def neutralResult : SentimentResult := ⟨"NEUTRAL", mkRat 1 2, 0⟩

/-- `SentimentAnalyzer.analyze` (ai_services.py lines 254-317).
`pipe` models `self.sentiment_pipeline`: `none` when no model loaded,
otherwise a classification collaborator returning a raw
`{label, confidence}` pair or raising.  `text` is `Option String` so that
the Python `None` argument is representable; `not text` is true exactly on
`none` and `some ""`. -/
def analyze (pipe : Option (String → Except Unit (String × ℚ)))
    (text : Option String) : SentimentResult :=
  match text, pipe with
  | none, _ => neutralResult
  | some _, none => neutralResult
  | some t, some f =>
    if t = "" then neutralResult
    else
      let cleaned := pyStrip t
      if (pySplit cleaned).length < 2 then neutralResult
      else
        let ws := pySplit cleaned
        let cleaned2 := if 512 < ws.length then joinWords (ws.take 512) else cleaned
        match f cleaned2 with
        | .error _ => neutralResult
        | .ok (rawLabel, rawScore) =>
          let label := pyUpper rawLabel
          let sentiment_score : ℚ :=
            if label = "POSITIVE" then rawScore
            else if label = "NEGATIVE" then -rawScore
            else 0
          if sentiment_score > mkRat 1 10 then ⟨"POSITIVE", rawScore, sentiment_score⟩
          else if sentiment_score < -(mkRat 1 10) then ⟨"NEGATIVE", rawScore, sentiment_score⟩
          else ⟨"NEUTRAL", mkRat 1 2, sentiment_score⟩

/-- `SentimentAnalyzer.batch_analyze` (ai_services.py lines 319-335).
`analyzeFn` models the per-item call `self.analyze(text)`; it returns
`Except` because the loop body is wrapped in `try/except`, replacing any
raised exception with the NEUTRAL default for that item. -/
def batch_analyze (analyzeFn : Option String → Except Unit SentimentResult) :
    List (Option String) → List SentimentResult
  | [] => []
  | t :: ts =>
    (match analyzeFn t with
     | .ok r => r
     | .error _ => neutralResult) :: batch_analyze analyzeFn ts

/-! ### Basic facts about `wsAux` / `wordsL`: Python's `split()` ignores
leading and trailing whitespace, so `s.strip().split() == s.split()`. -/

theorem wsAux_all_space (sp : List Char) (hs : ∀ c ∈ sp, isSpace c = true) (acc : List Char) :
    wsAux sp acc = if acc.isEmpty then [] else [acc.reverse] := by
  induction sp generalizing acc with
  | nil => rfl
  | cons c cs ih =>
    have hc : isSpace c = true := hs c (List.mem_cons_self c cs)
    have hcs : ∀ d ∈ cs, isSpace d = true := fun d hd => hs d (List.mem_cons_of_mem c hd)
    simp only [wsAux, hc, if_true]
    by_cases ha : acc.isEmpty
    · simp [ha, ih hcs]
    · simp [ha, ih hcs]

theorem wsAux_append_space (l sp : List Char) (hs : ∀ c ∈ sp, isSpace c = true)
    (acc : List Char) : wsAux (l ++ sp) acc = wsAux l acc := by
  induction l generalizing acc with
  | nil =>
    simp only [List.nil_append]
    rw [wsAux_all_space sp hs acc]
    cases acc <;> rfl
  | cons c cs ih =>
    simp only [List.cons_append, wsAux]
    by_cases hc : isSpace c
    · by_cases ha : acc.isEmpty <;> simp [hc, ha, ih]
    · simp [hc, ih]

theorem wordsL_dropWhile (l : List Char) :
    wordsL (l.dropWhile isSpace) = wordsL l := by
  induction l with
  | nil => rfl
  | cons c cs ih =>
    by_cases hc : isSpace c
    · rw [List.dropWhile_cons_of_pos hc]
      rw [ih]
      show wordsL cs = wsAux (c :: cs) []
      simp [wsAux, hc, wordsL]
    · rw [List.dropWhile_cons_of_neg hc]

theorem mem_takeWhile_space (p : Char → Bool) (l : List Char) :
    ∀ c ∈ l.takeWhile p, p c = true := by
  induction l with
  | nil => intro c hc; cases hc
  | cons a as ih =>
    intro c hc
    by_cases ha : p a
    · rw [List.takeWhile_cons_of_pos ha] at hc
      rcases List.mem_cons.mp hc with h | h
      · exact h ▸ ha
      · exact ih c h
    · rw [List.takeWhile_cons_of_neg ha] at hc
      cases hc

theorem wordsL_pyStripL (l : List Char) : wordsL (pyStripL l) = wordsL l := by
  unfold pyStripL
  set d := l.dropWhile isSpace with hd
  set sp := (d.reverse.takeWhile isSpace).reverse with hsp
  have hdecomp : d = (d.reverse.dropWhile isSpace).reverse ++ sp := by
    have h1 : d.reverse.takeWhile isSpace ++ d.reverse.dropWhile isSpace = d.reverse :=
      List.takeWhile_append_dropWhile isSpace d.reverse
    calc d = d.reverse.reverse := (List.reverse_reverse d).symm
    _ = (d.reverse.takeWhile isSpace ++ d.reverse.dropWhile isSpace).reverse := by rw [h1]
    _ = (d.reverse.dropWhile isSpace).reverse ++ sp := by
        rw [List.reverse_append, hsp]
  have hspspace : ∀ c ∈ sp, isSpace c = true := by
    intro c hc
    rw [hsp] at hc
    exact mem_takeWhile_space isSpace d.reverse c (List.mem_reverse.mp hc)
  have h2 : wordsL ((d.reverse.dropWhile isSpace).reverse) = wordsL d := by
    conv_rhs => rw [hdecomp]
    exact (wsAux_append_space _ sp hspspace []).symm
  rw [h2, hd, wordsL_dropWhile]

theorem pySplit_pyStrip (s : String) : pySplit (pyStrip s) = pySplit s := by
  show (wordsL (pyStripL s.data)).map _ = (wordsL s.data).map _
  rw [wordsL_pyStripL]

example : analyze none (some "good day") = neutralResult := by decide
example : analyze (some fun _ => .ok ("positive", mkRat 9 10)) (some "very nice thing") =
    ⟨"POSITIVE", mkRat 9 10, mkRat 9 10⟩ := by decide
example : analyze (some fun _ => .ok ("negative", mkRat 9 10)) (some "very nice thing") =
    ⟨"NEGATIVE", mkRat 9 10, -(mkRat 9 10)⟩ := by decide
example : analyze (some fun _ => .ok ("positive", mkRat 1 20)) (some "very nice thing") =
    ⟨"NEUTRAL", mkRat 1 2, mkRat 1 20⟩ := by decide
example : analyze (some fun _ => .ok ("positive", mkRat 9 10)) (some "hi") = neutralResult := by
  decide

/-- Exhaustive shape analysis of `analyze`: every result is the NEUTRAL
default or comes from one of the three threshold branches. -/
theorem analyze_cases (pipe : Option (String → Except Unit (String × ℚ)))
    (text : Option String) :
    analyze pipe text = neutralResult ∨
    (∃ sc s, mkRat 1 10 < s ∧ analyze pipe text = ⟨"POSITIVE", sc, s⟩) ∨
    (∃ sc s, s < -(mkRat 1 10) ∧ analyze pipe text = ⟨"NEGATIVE", sc, s⟩) ∨
    (∃ s, ¬ mkRat 1 10 < s ∧ ¬ s < -(mkRat 1 10) ∧
      analyze pipe text = ⟨"NEUTRAL", mkRat 1 2, s⟩) := by
  rcases text with _ | t
  · exact Or.inl rfl
  rcases pipe with _ | f
  · exact Or.inl rfl
  simp only [analyze]
  by_cases ht : t = ""
  · rw [if_pos ht]; exact Or.inl rfl
  rw [if_neg ht]
  by_cases hlen : (pySplit (pyStrip t)).length < 2
  · rw [if_pos hlen]; exact Or.inl rfl
  rw [if_neg hlen]
  split
  · exact Or.inl rfl
  rename_i rawLabel rawScore heq
  by_cases h1 : (if pyUpper rawLabel = "POSITIVE" then rawScore
      else if pyUpper rawLabel = "NEGATIVE" then -rawScore else 0) > mkRat 1 10
  · rw [if_pos h1]
    exact Or.inr (Or.inl ⟨rawScore, _, h1, rfl⟩)
  rw [if_neg h1]
  by_cases h2 : (if pyUpper rawLabel = "POSITIVE" then rawScore
      else if pyUpper rawLabel = "NEGATIVE" then -rawScore else 0) < -(mkRat 1 10)
  · rw [if_pos h2]
    exact Or.inr (Or.inr (Or.inl ⟨rawScore, _, h2, rfl⟩))
  rw [if_neg h2]
  exact Or.inr (Or.inr (Or.inr ⟨_, h1, h2, rfl⟩))

/-- C5: every result of `SentimentAnalyzer.analyze` derives its final label
from the signed score by the fixed thresholds — POSITIVE iff the signed
score exceeds 0.1, NEGATIVE iff it is below -0.1, NEUTRAL otherwise — and a
NEUTRAL result always carries confidence 0.5 regardless of the raw
collaborator confidence. -/
theorem analyze_label_thresholds (pipe : Option (String → Except Unit (String × ℚ)))
    (text : Option String) :
    ((analyze pipe text).label = "POSITIVE" ↔
      mkRat 1 10 < (analyze pipe text).sentiment_score) ∧
    ((analyze pipe text).label = "NEGATIVE" ↔
      (analyze pipe text).sentiment_score < -(mkRat 1 10)) ∧
    ((analyze pipe text).label = "NEUTRAL" ↔
      (¬ mkRat 1 10 < (analyze pipe text).sentiment_score ∧
       ¬ (analyze pipe text).sentiment_score < -(mkRat 1 10))) ∧
    ((analyze pipe text).label = "NEUTRAL" → (analyze pipe text).score = mkRat 1 2) := by
  have hlt : -(mkRat 1 10) < mkRat 1 10 := by decide
  rcases analyze_cases pipe text with h | ⟨sc, s, hgt, h⟩ | ⟨sc, s, hltneg, h⟩ | ⟨s, h1, h2, h⟩ <;>
    rw [h]
  · refine ⟨by decide, by decide, by decide, fun _ => rfl⟩
  · refine ⟨⟨fun _ => hgt, fun _ => rfl⟩, ⟨fun hlbl => by simp at hlbl, fun hneg => ?_⟩,
      ⟨fun hlbl => by simp at hlbl, fun ⟨hn, _⟩ => absurd hgt hn⟩, fun hlbl => by simp at hlbl⟩
    exact absurd (lt_trans hneg (lt_trans hlt hgt)) (lt_irrefl s)
  · refine ⟨⟨fun hlbl => by simp at hlbl, fun hpos => ?_⟩, ⟨fun _ => hltneg, fun _ => rfl⟩,
      ⟨fun hlbl => by simp at hlbl, fun ⟨_, hn⟩ => absurd hltneg hn⟩, fun hlbl => by simp at hlbl⟩
    exact absurd (lt_trans hpos (lt_trans hltneg hlt)) (lt_irrefl _)
  · exact ⟨⟨fun hlbl => by simp at hlbl, fun hpos => absurd hpos h1⟩,
      ⟨fun hlbl => by simp at hlbl, fun hneg => absurd hneg h2⟩,
      ⟨fun _ => ⟨h1, h2⟩, fun _ => rfl⟩, fun _ => rfl⟩

/-- Witness for C5 at a concrete input: a raw positive classification with
confidence 0.9 yields the POSITIVE label, and a NEUTRAL result carries
confidence 0.5. -/
theorem analyze_label_thresholds_witness :
    ((analyze (some fun _ => .ok ("positive", mkRat 9 10)) (some "very nice thing")).label
        = "POSITIVE" ↔
      mkRat 1 10 <
        (analyze (some fun _ => .ok ("positive", mkRat 9 10))
          (some "very nice thing")).sentiment_score) ∧
    ((analyze none none).label = "NEUTRAL" → (analyze none none).score = mkRat 1 2) :=
  ⟨(analyze_label_thresholds (some fun _ => .ok ("positive", mkRat 9 10))
      (some "very nice thing")).1,
   (analyze_label_thresholds none none).2.2.2⟩

/-- C6: `batch_analyze` returns one result per input text, in input order;
each item is the single-item `analyze` result for the corresponding text,
and an exception raised while analyzing one item is replaced by the NEUTRAL
default for that item only. -/
theorem batch_analyze_length_order
    (analyzeFn : Option String → Except Unit SentimentResult)
    (pipe : Option (String → Except Unit (String × ℚ)))
    (texts : List (Option String)) :
    (batch_analyze analyzeFn texts).length = texts.length ∧
    batch_analyze analyzeFn texts =
      texts.map (fun t => match analyzeFn t with
        | .ok r => r
        | .error _ => neutralResult) ∧
    batch_analyze (fun t => .ok (analyze pipe t)) texts = texts.map (analyze pipe) := by
  induction texts with
  | nil => exact ⟨rfl, rfl, rfl⟩
  | cons t ts ih =>
    refine ⟨?_, ?_, ?_⟩
    · simp only [batch_analyze, List.length_cons, ih.1]
    · simp only [batch_analyze, List.map_cons, ih.2.1]
    · simp only [batch_analyze, List.map_cons, ih.2.2]

/-- C7: `analyze` returns the NEUTRAL default whenever the input text is
`None` or empty, the classification collaborator is not loaded, or the
text's word count is below 2. -/
theorem analyze_neutral_defaults (pipe : Option (String → Except Unit (String × ℚ)))
    (text : Option String)
    (h : text = none ∨ text = some "" ∨ pipe = none ∨
      (pySplit (text.getD "")).length < 2) :
    analyze pipe text = neutralResult := by
  rcases text with _ | t
  · rfl
  rcases pipe with _ | f
  · rfl
  rcases h with h | h | h | h
  · cases h
  · rw [Option.some.injEq] at h
    simp [analyze, h]
  · cases h
  · simp only [analyze]
    by_cases ht : t = ""
    · rw [if_pos ht]
    rw [if_neg ht]
    have h2 : (pySplit (pyStrip t)).length < 2 := by
      rw [pySplit_pyStrip]
      simpa using h
    rw [if_pos h2]

/-- Witness for C7: a loaded-collaborator-free analyzer on a nonempty text
returns the NEUTRAL default. -/
theorem analyze_neutral_defaults_witness :
    analyze none (some "hello world") = neutralResult :=
  analyze_neutral_defaults none (some "hello world") (Or.inr (Or.inr (Or.inl rfl)))

/-! ## TextPreprocessor.clean_text (ai_services.py lines 53-73)

The five `re.sub` passes are embedded one scanner per regex, each matching
Python `re` semantics (leftmost match, greedy quantifiers, scanning resumes
after each match, one character forward after each failed position). -/

/-- One scan of `re.sub(r'<[^>]+>', '', text)`.  State `none`: not inside a
candidate tag.  State `some buf`: a `<` was seen and `buf` holds the
(reversed) non-`>` characters read since.  On `>` with a nonempty body the
whole candidate is dropped; `<>` and an unclosed `<` are emitted verbatim,
exactly as the regex leaves them (a `<` immediately followed by `>` or by
end of input can never start a match since `[^>]+` needs one character). -/
def rtAux : List Char → Option (List Char) → List Char
  | [], none => []
  | [], some buf => '<' :: buf.reverse
  | c :: cs, none =>
    if c = '<' then rtAux cs (some []) else c :: rtAux cs none
  | c :: cs, some buf =>
    if c = '>' then
      (if buf.isEmpty then '<' :: '>' :: rtAux cs none else rtAux cs none)
    else rtAux cs (some (c :: buf))

/-- `re.sub(r'<[^>]+>', '', text)`: remove HTML tags. -/
def removeTags (l : List Char) : List Char := rtAux l none

/-- Character class of the URL regex body
`(?:[a-zA-Z]|[0-9]|[$-_@.&+]|[!*\\(\\),]|(?:%[0-9a-fA-F][0-9a-fA-F]))+`:
letters, digits, the range `$`(36)-`_`(95) (which subsumes `@ . & + %` and
makes the percent-encoding alternative redundant), and `! * \ ( ) ,`. -/
def isUrlChar (c : Char) : Bool :=
  c.isAlpha || c.isDigit || (36 ≤ c.toNat && c.toNat ≤ 95) ||
    c = '!' || c = '*' || c = '\\' || c = '(' || c = ')' || c = ','

/-- Boolean list-prefix test. -/
def startsWithL (pat l : List Char) : Bool := l.take pat.length == pat

/-- After `http[s]?://` the regex requires a nonempty greedy run of URL
characters; returns the remainder after that run, or `none` if the run is
empty (then the whole candidate fails, as `+` needs one character). -/
def urlTail : List Char → Option (List Char)
  | [] => none
  | c :: cs => if isUrlChar c then some (cs.dropWhile isUrlChar) else none

/-- Attempt to match the URL regex at the start of `l`; on success return
the unconsumed remainder.  The greedy optional `s` backtracks correctly: if
`s://` follows `http` but no URL character comes after, the `://`-without-`s`
reading is impossible too (the next character is `s`, not `:`). -/
def tryUrl (l : List Char) : Option (List Char) :=
  if startsWithL "http".data l then
    if startsWithL "s://".data (l.drop 4) then urlTail ((l.drop 4).drop 4)
    else if startsWithL "://".data (l.drop 4) then urlTail ((l.drop 4).drop 3)
    else none
  else none

/-- Fuel-indexed scanner for the URL `re.sub`; fuel `l.length` always
suffices since every match consumes at least one character. -/
def ruF : Nat → List Char → List Char
  | _, [] => []
  | 0, l => l
  | fuel + 1, c :: cs =>
    match tryUrl (c :: cs) with
    | some rest => ruF fuel rest
    | none => c :: ruF fuel cs

/-- `re.sub(r'http[s]?://(?:...)+', '', text)`: remove URLs. -/
def removeUrls (l : List Char) : List Char := ruF l.length l

/-- Whether a maximal non-whitespace run is matched (hence deleted entirely)
by `\S+@\S+`: the run must contain `@` at an interior position (at least one
non-space character before and after it within the run).  Leftmost-greedy
matching then consumes the entire run. -/
def emailDel (run : List Char) : Bool := ((run.drop 1).dropLast).contains '@'

/-- One scan of `re.sub(r'\S+@\S+', '', text)`: decompose into maximal
non-whitespace runs (accumulated reversed in `acc`), deleting runs matched
by the email regex and keeping all whitespace. -/
def reAux : List Char → List Char → List Char
  | [], acc => if emailDel acc.reverse then [] else acc.reverse
  | c :: cs, acc =>
    if isSpace c then
      (if emailDel acc.reverse then [] else acc.reverse) ++ (c :: reAux cs [])
    else reAux cs (c :: acc)

/-- `re.sub(r'\S+@\S+', '', text)`: remove email addresses. -/
def removeEmails (l : List Char) : List Char := reAux l []

/-- One pass of `re.sub(r'\s+', ' ', text)`: each maximal whitespace run
becomes a single space.  The Boolean argument records whether the previous
character was part of a whitespace run already replaced. -/
def cwAux : List Char → Bool → List Char
  | [], _ => []
  | c :: cs, inRun =>
    if isSpace c then
      (if inRun then cwAux cs true else ' ' :: cwAux cs true)
    else c :: cwAux cs false

/-- `re.sub(r'\s+', ' ', text)`: collapse whitespace runs. -/
def collapseWs (l : List Char) : List Char := cwAux l false

/-- ASCII model of Python's regex class `\w` (word characters). -/
def isWordChar (c : Char) : Bool := c.isAlphanum || c = '_'

/-- The character set kept by `re.sub(r'[^\w\s\.\,\!\?\;\:\-]', '', text)`:
word characters, whitespace and `. , ! ? ; : -`. -/
def isAllowed (c : Char) : Bool :=
  isWordChar c || isSpace c ||
    c = '.' || c = ',' || c = '!' || c = '?' || c = ';' || c = ':' || c = '-'

/-- The full `clean_text` pipeline on a character list (tags, URLs, emails,
whitespace collapse + strip, character filter, in source order). -/
def cleanL (l : List Char) : List Char :=
  (pyStripL (collapseWs (removeEmails (removeUrls (removeTags l))))).filter isAllowed

/-- `TextPreprocessor.clean_text` (ai_services.py lines 53-73).  The
`isinstance` guard is outside the typed model; the falsy-input guard maps
`""` to `""`. -/
def clean_text (s : String) : String :=
  if s = "" then "" else ⟨cleanL s.data⟩

example : clean_text "Hello <b>world</b>!" = "Hello world!" := by decide
example : clean_text "go to https://example.com/x now" = "go to now" := by decide
example : clean_text "mail info@example.com please" = "mail please" := by decide
example : clean_text "  a   b  " = "a b" := by decide
example : clean_text "a # b" = "a  b" := by decide
example : clean_text "x <> y" = "x  y" := by decide

/-! ### Length bounds: every pass of `clean_text` is non-increasing. -/

theorem rtAux_len (l : List Char) :
    ∀ st : Option (List Char),
      (rtAux l st).length ≤ l.length + (match st with | none => 0 | some buf => buf.length + 1) := by
  induction l with
  | nil =>
    intro st
    rcases st with _ | buf
    · simp [rtAux]
    · simp [rtAux]
  | cons c cs ih =>
    intro st
    rcases st with _ | buf
    · by_cases hc : c = '<'
      · simp only [rtAux, if_pos hc]
        calc (rtAux cs (some [])).length ≤ cs.length + (0 + 1) := ih (some [])
        _ ≤ (c :: cs).length + 0 := by simp [List.length_cons]
      · simp only [rtAux, if_neg hc, List.length_cons]
        have := ih (none : Option (List Char))
        simp only [Nat.add_zero] at this ⊢
        omega
    · by_cases hc : c = '>'
      · by_cases hb : buf.isEmpty
        · simp only [rtAux, if_pos hc, if_pos hb, List.length_cons]
          have := ih (none : Option (List Char))
          have hb0 : buf.length = 0 := by
            cases buf
            · rfl
            · simp [List.isEmpty] at hb
          simp only [Nat.add_zero] at this
          omega
        · simp only [rtAux, if_pos hc, if_neg hb, List.length_cons]
          have := ih (none : Option (List Char))
          simp only [Nat.add_zero] at this
          omega
      · simp only [rtAux, if_neg hc, List.length_cons]
        have := ih (some (c :: buf))
        simp only [List.length_cons] at this
        omega

theorem removeTags_len (l : List Char) : (removeTags l).length ≤ l.length := by
  have := rtAux_len l none
  simpa [removeTags] using this

theorem urlTail_len {l r : List Char} (h : urlTail l = some r) : r.length ≤ l.length := by
  cases l with
  | nil => simp [urlTail] at h
  | cons c cs =>
    simp only [urlTail] at h
    by_cases hc : isUrlChar c
    · rw [if_pos hc] at h
      injection h with h
      subst h
      calc (cs.dropWhile isUrlChar).length ≤ cs.length :=
        (List.dropWhile_sublist _).length_le
      _ ≤ (c :: cs).length := by simp [List.length_cons]
    · rw [if_neg hc] at h
      cases h

theorem tryUrl_len {l r : List Char} (h : tryUrl l = some r) : r.length ≤ l.length := by
  unfold tryUrl at h
  split_ifs at h with h1 h2 h3
  · have := urlTail_len h
    calc r.length ≤ ((l.drop 4).drop 4).length := this
    _ ≤ l.length := by simp [List.length_drop]
  · have := urlTail_len h
    calc r.length ≤ ((l.drop 4).drop 3).length := this
    _ ≤ l.length := by simp [List.length_drop]

theorem ruF_len : ∀ (fuel : Nat) (l : List Char), (ruF fuel l).length ≤ l.length := by
  intro fuel
  induction fuel with
  | zero =>
    intro l
    cases l <;> simp [ruF]
  | succ n ih =>
    intro l
    cases l with
    | nil => simp [ruF]
    | cons c cs =>
      simp only [ruF]
      cases h : tryUrl (c :: cs) with
      | some rest =>
        calc (ruF n rest).length ≤ rest.length := ih rest
        _ ≤ (c :: cs).length := tryUrl_len h
      | none =>
        simp only [List.length_cons]
        exact Nat.succ_le_succ (ih cs)

theorem removeUrls_len (l : List Char) : (removeUrls l).length ≤ l.length :=
  ruF_len l.length l

theorem reAux_len : ∀ (l acc : List Char), (reAux l acc).length ≤ acc.length + l.length := by
  intro l
  induction l with
  | nil =>
    intro acc
    simp only [reAux]
    split
    · simp
    · simp
  | cons c cs ih =>
    intro acc
    simp only [reAux]
    by_cases hc : isSpace c
    · rw [if_pos hc]
      have h1 : (if emailDel acc.reverse then [] else acc.reverse).length ≤ acc.length := by
        split <;> simp
      simp only [List.length_append, List.length_cons]
      have := ih []
      simp only [List.length_nil, Nat.zero_add] at this
      omega
    · rw [if_neg hc]
      have := ih (c :: acc)
      simp only [List.length_cons] at this ⊢
      omega

theorem removeEmails_len (l : List Char) : (removeEmails l).length ≤ l.length := by
  have := reAux_len l []
  simpa [removeEmails] using this

theorem cwAux_len : ∀ (l : List Char) (b : Bool), (cwAux l b).length ≤ l.length := by
  intro l
  induction l with
  | nil => intro b; simp [cwAux]
  | cons c cs ih =>
    intro b
    simp only [cwAux]
    by_cases hc : isSpace c
    · rw [if_pos hc]
      split
      · exact le_trans (ih true) (by simp)
      · simp only [List.length_cons]
        exact Nat.succ_le_succ (ih true)
    · rw [if_neg hc]
      simp only [List.length_cons]
      exact Nat.succ_le_succ (ih false)

theorem collapseWs_len (l : List Char) : (collapseWs l).length ≤ l.length := cwAux_len l false

theorem pyStripL_len (l : List Char) : (pyStripL l).length ≤ l.length := by
  unfold pyStripL
  calc (((l.dropWhile isSpace).reverse.dropWhile isSpace).reverse).length
      = ((l.dropWhile isSpace).reverse.dropWhile isSpace).length := List.length_reverse _
  _ ≤ (l.dropWhile isSpace).reverse.length := (List.dropWhile_sublist _).length_le
  _ = (l.dropWhile isSpace).length := List.length_reverse _
  _ ≤ l.length := (List.dropWhile_sublist _).length_le

theorem cleanL_len (l : List Char) : (cleanL l).length ≤ l.length := by
  unfold cleanL
  calc ((pyStripL (collapseWs (removeEmails (removeUrls (removeTags l))))).filter isAllowed).length
      ≤ (pyStripL (collapseWs (removeEmails (removeUrls (removeTags l))))).length :=
        (List.filter_sublist _).length_le
  _ ≤ (collapseWs (removeEmails (removeUrls (removeTags l)))).length := pyStripL_len _
  _ ≤ (removeEmails (removeUrls (removeTags l))).length := collapseWs_len _
  _ ≤ (removeUrls (removeTags l)).length := removeEmails_len _
  _ ≤ (removeTags l).length := removeUrls_len _
  _ ≤ l.length := removeTags_len _

/-- C10: the normalizer never lengthens its input — every transformation
step only deletes characters or replaces a whitespace run by one space. -/
theorem clean_text_length_le (s : String) : (clean_text s).length ≤ s.length := by
  unfold clean_text
  split
  · simp
  · show (cleanL s.data).length ≤ s.data.length
    exact cleanL_len s.data

/-! ### Character-set facts about `clean_text` output (claim C8). -/

theorem clean_allAllowed (s : String) : ∀ c ∈ (clean_text s).data, isAllowed c = true := by
  intro c hc
  unfold clean_text at hc
  split at hc
  · cases hc
  · exact List.of_mem_filter hc

/-- `pat` occurs as a contiguous substring of `l`. -/
def containsRun (pat l : List Char) : Prop := ∃ a b, l = a ++ pat ++ b

theorem containsRun_subset {pat l : List Char} (h : containsRun pat l) :
    ∀ c ∈ pat, c ∈ l := by
  rcases h with ⟨a, b, rfl⟩
  intro c hc
  simp [List.mem_append, hc]

/-- C8: the normalizer's output contains no `http://` or `https://`
substring and no HTML-tag-shaped substring `<...>` — the final character
filter removes every `/` and `<`, so no such substring can survive. -/
theorem clean_text_no_url_no_tag (s : String) :
    ¬ containsRun "http://".data (clean_text s).data ∧
    ¬ containsRun "https://".data (clean_text s).data ∧
    ∀ mid : List Char, ¬ containsRun ('<' :: (mid ++ ['>'])) (clean_text s).data := by
  have hall := clean_allAllowed s
  refine ⟨fun h => ?_, fun h => ?_, fun mid h => ?_⟩
  · have hmem : '/' ∈ (clean_text s).data :=
      containsRun_subset h '/' (by decide)
    have := hall '/' hmem
    simp [isAllowed, isWordChar, isSpace] at this
  · have hmem : '/' ∈ (clean_text s).data :=
      containsRun_subset h '/' (by decide)
    have := hall '/' hmem
    simp [isAllowed, isWordChar, isSpace] at this
  · have hmem : '<' ∈ (clean_text s).data :=
      containsRun_subset h '<' (List.mem_cons_self _ _)
    have := hall '<' hmem
    simp [isAllowed, isWordChar, isSpace] at this

/-- Witness for C8 at a concrete input containing a URL and a tag. -/
theorem clean_text_no_url_no_tag_witness :
    ¬ containsRun "http://".data (clean_text "see <b>this</b> at http://x.io now").data ∧
    ¬ containsRun ('<' :: (['b'] ++ ['>'])) (clean_text "see <b>this</b> at http://x.io now").data :=
  ⟨(clean_text_no_url_no_tag "see <b>this</b> at http://x.io now").1,
   (clean_text_no_url_no_tag "see <b>this</b> at http://x.io now").2.2 ['b']⟩

/-! ### Idempotence analysis of `clean_text` (claim C2).

`clean_text` is NOT idempotent: the character filter runs after whitespace
collapsing, so deleting a standalone disallowed character (e.g. `#`) leaves
a double space that only a second pass collapses.  A second application is
a fixed point, proved below. -/

theorem rtAux_id (l : List Char) (h : ∀ c ∈ l, c ≠ '<') : rtAux l none = l := by
  induction l with
  | nil => rfl
  | cons c cs ih =>
    have hc : c ≠ '<' := h c (List.mem_cons_self c cs)
    simp only [rtAux, if_neg hc]
    rw [ih (fun d hd => h d (List.mem_cons_of_mem c hd))]

theorem tryUrl_slash {l r : List Char} (h : tryUrl l = some r) : '/' ∈ l := by
  unfold tryUrl at h
  split_ifs at h with h1 h2 h3
  · unfold startsWithL at h2
    have h2' := eq_of_beq h2
    have : '/' ∈ (l.drop 4).take ("s://".data.length) := by
      rw [h2']
      decide
    exact List.drop_subset 4 l (List.take_subset _ _ this)
  · unfold startsWithL at h3
    have h3' := eq_of_beq h3
    have : '/' ∈ (l.drop 4).take ("://".data.length) := by
      rw [h3']
      decide
    exact List.drop_subset 4 l (List.take_subset _ _ this)

theorem ruF_id : ∀ (fuel : Nat) (l : List Char), (∀ c ∈ l, c ≠ '/') → ruF fuel l = l := by
  intro fuel
  induction fuel with
  | zero => intro l _; cases l <;> rfl
  | succ n ih =>
    intro l h
    cases l with
    | nil => rfl
    | cons c cs =>
      simp only [ruF]
      cases htry : tryUrl (c :: cs) with
      | some rest => exact absurd rfl (h '/' (tryUrl_slash htry))
      | none =>
        rw [ih cs (fun d hd => h d (List.mem_cons_of_mem c hd))]

theorem emailDel_mem {run : List Char} (h : emailDel run = true) : '@' ∈ run := by
  unfold emailDel at h
  have : '@' ∈ (run.drop 1).dropLast := List.elem_iff.mp h
  exact List.drop_subset 1 run ((List.dropLast_sublist _).subset this)

theorem reAux_id (l : List Char) (h : ∀ c ∈ l, c ≠ '@') :
    ∀ acc : List Char, (∀ c ∈ acc, c ≠ '@') → reAux l acc = acc.reverse ++ l := by
  induction l with
  | nil =>
    intro acc hacc
    simp only [reAux]
    rw [if_neg ?_, List.append_nil]
    intro hdel
    exact absurd rfl (hacc '@' (List.mem_reverse.mp (emailDel_mem hdel)))
  | cons c cs ih =>
    intro acc hacc
    have hcs : ∀ d ∈ cs, d ≠ '@' := fun d hd => h d (List.mem_cons_of_mem c hd)
    simp only [reAux]
    by_cases hc : isSpace c
    · rw [if_pos hc, if_neg ?_]
      · rw [ih hcs [] (by intro d hd; cases hd)]
        rfl
      · intro hdel
        exact absurd rfl (hacc '@' (List.mem_reverse.mp (emailDel_mem hdel)))
    · rw [if_neg hc]
      rw [ih hcs (c :: acc) ?_]
      · simp [List.reverse_cons, List.append_assoc]
      · intro d hd
        rcases List.mem_cons.mp hd with rfl | hd
        · exact h d (List.mem_cons_self d cs)
        · exact hacc d hd

/-- Whitespace normal form after the `\s+` collapse: every whitespace
character is a plain space and no two adjacent characters are both
whitespace. -/
def WSClean (m : List Char) : Prop :=
  (∀ c ∈ m, isSpace c = true → c = ' ') ∧
  m.Chain' (fun a b => isSpace a = false ∨ isSpace b = false)

theorem cw_head_true (l : List Char) :
    ∀ d, (cwAux l true).head? = some d → isSpace d = false := by
  induction l with
  | nil => intro d hd; cases hd
  | cons c cs ih =>
    intro d hd
    by_cases hc : isSpace c
    · simp only [cwAux, if_pos hc] at hd
      exact ih d hd
    · simp only [cwAux, if_neg hc] at hd
      injection hd with hd
      rw [← hd]
      exact eq_false_of_ne_true hc

theorem cw_wsclean : ∀ (l : List Char) (b : Bool), WSClean (cwAux l b) := by
  intro l
  induction l with
  | nil => intro b; exact ⟨fun c hc => absurd hc (List.not_mem_nil c), List.chain'_nil⟩
  | cons c cs ih =>
    intro b
    by_cases hc : isSpace c
    · cases b with
      | true =>
        simp only [cwAux, if_pos hc]
        exact ih true
      | false =>
        simp only [cwAux, if_pos hc]
        refine ⟨?_, ?_⟩
        · intro d hd hsp
          rcases List.mem_cons.mp hd with rfl | hd
          · rfl
          · exact (ih true).1 d hd hsp
        · refine List.chain'_cons'.mpr ⟨?_, (ih true).2⟩
          intro y hy
          exact Or.inr (cw_head_true cs y hy)
    · simp only [cwAux, if_neg hc]
      refine ⟨?_, ?_⟩
      · intro d hd hsp
        rcases List.mem_cons.mp hd with rfl | hd
        · exact absurd hsp (by simpa using hc)
        · exact (ih false).1 d hd hsp
      · refine List.chain'_cons'.mpr ⟨?_, (ih false).2⟩
        intro y _
        exact Or.inl (eq_false_of_ne_true hc)

theorem cw_true_eq_false (l : List Char)
    (h : ∀ d, l.head? = some d → isSpace d = false) :
    cwAux l true = cwAux l false := by
  cases l with
  | nil => rfl
  | cons c cs =>
    have hc : isSpace c = false := h c rfl
    simp [cwAux, hc]

theorem cw_fix (m : List Char) (h : WSClean m) : cwAux m false = m := by
  induction m with
  | nil => rfl
  | cons c cs ih =>
    obtain ⟨hmem, hch⟩ := h
    have htail : WSClean cs :=
      ⟨fun d hd => hmem d (List.mem_cons_of_mem c hd), (List.chain'_cons'.mp hch).2⟩
    by_cases hc : isSpace c
    · have hc' : c = ' ' := hmem c (List.mem_cons_self c cs) hc
      have hnext : ∀ d, cs.head? = some d → isSpace d = false := by
        intro d hd
        rcases (List.chain'_cons'.mp hch).1 d hd with hfalse | hok
        · exact absurd hc (by simp [hfalse])
        · exact hok
      simp only [cwAux, if_pos hc]
      rw [cw_true_eq_false cs hnext, ih htail, hc']
      simp
    · simp only [cwAux, if_neg hc]
      rw [ih htail]

theorem cw_mem (l : List Char) (b : Bool) :
    ∀ c ∈ cwAux l b, c ∈ l ∨ c = ' ' := by
  induction l generalizing b with
  | nil => intro c hc; cases hc
  | cons a as ih =>
    intro c hc
    by_cases ha : isSpace a
    · simp only [cwAux, if_pos ha] at hc
      cases b with
      | true =>
        rcases ih true c hc with h | h
        · exact Or.inl (List.mem_cons_of_mem a h)
        · exact Or.inr h
      | false =>
        rcases List.mem_cons.mp hc with rfl | hc
        · exact Or.inr rfl
        · rcases ih true c hc with h | h
          · exact Or.inl (List.mem_cons_of_mem a h)
          · exact Or.inr h
    · simp only [cwAux, if_neg ha] at hc
      rcases List.mem_cons.mp hc with rfl | hc
      · exact Or.inl (List.mem_cons_self c as)
      · rcases ih false c hc with h | h
        · exact Or.inl (List.mem_cons_of_mem a h)
        · exact Or.inr h

/-- Decomposition of `strip`: the stripped list, extended by the trailing
whitespace, is the leading-whitespace-dropped list. -/
theorem strip_decomp (l : List Char) :
    ∃ t, pyStripL l ++ t = l.dropWhile isSpace ∧ ∀ c ∈ t, isSpace c = true := by
  refine ⟨((l.dropWhile isSpace).reverse.takeWhile isSpace).reverse, ?_, ?_⟩
  · unfold pyStripL
    rw [← List.reverse_append, List.takeWhile_append_dropWhile, List.reverse_reverse]
  · intro c hc
    exact mem_takeWhile_space isSpace _ c (List.mem_reverse.mp hc)

theorem strip_full_decomp (l : List Char) :
    ∃ s t, (∀ c ∈ s, isSpace c = true) ∧ (∀ c ∈ t, isSpace c = true) ∧
      s ++ (pyStripL l ++ t) = l := by
  obtain ⟨t, ht, htsp⟩ := strip_decomp l
  refine ⟨l.takeWhile isSpace, t, ?_, htsp, ?_⟩
  · exact mem_takeWhile_space isSpace l
  · rw [ht, List.takeWhile_append_dropWhile]

theorem strip_subset (l : List Char) : ∀ c ∈ pyStripL l, c ∈ l := by
  obtain ⟨s, t, _, _, hdec⟩ := strip_full_decomp l
  intro c hc
  rw [← hdec]
  simp [List.mem_append, hc]

theorem strip_wsclean (m : List Char) (h : WSClean m) : WSClean (pyStripL m) := by
  obtain ⟨s, t, _, _, hdec⟩ := strip_full_decomp m
  constructor
  · intro c hc hsp
    exact h.1 c (strip_subset m c hc) hsp
  · have h2 := h.2
    rw [← hdec] at h2
    exact (h2.right_of_append).left_of_append

theorem head_dropWhile_false (p : Char → Bool) (l : List Char) :
    ∀ d, (l.dropWhile p).head? = some d → p d = false := by
  induction l with
  | nil => intro d hd; cases hd
  | cons c cs ih =>
    intro d hd
    by_cases hc : p c
    · rw [List.dropWhile_cons_of_pos hc] at hd
      exact ih d hd
    · rw [List.dropWhile_cons_of_neg hc] at hd
      injection hd with hd
      rw [← hd]
      exact eq_false_of_ne_true hc

/-- No leading and no trailing whitespace. -/
def NoEdgeSpace (m : List Char) : Prop :=
  (∀ d, m.head? = some d → isSpace d = false) ∧
  (∀ d, m.reverse.head? = some d → isSpace d = false)

theorem strip_noEdge (m : List Char) : NoEdgeSpace (pyStripL m) := by
  constructor
  · obtain ⟨t, ht, _⟩ := strip_decomp m
    intro d hd
    cases hps : pyStripL m with
    | nil => rw [hps] at hd; cases hd
    | cons a as =>
      rw [hps] at hd
      injection hd with hd
      have hhead : (m.dropWhile isSpace).head? = some a := by
        rw [← ht, hps]
        rfl
      rw [← hd]
      exact head_dropWhile_false isSpace m a hhead
  · intro d hd
    have hrev : (pyStripL m).reverse = (m.dropWhile isSpace).reverse.dropWhile isSpace := by
      unfold pyStripL
      rw [List.reverse_reverse]
    rw [hrev] at hd
    exact head_dropWhile_false isSpace _ d hd

theorem strip_fix (z : List Char) (h : NoEdgeSpace z) : pyStripL z = z := by
  unfold pyStripL
  have h1 : z.dropWhile isSpace = z := by
    cases hz : z with
    | nil => rfl
    | cons a as =>
      have ha : isSpace a = false := h.1 a (by rw [hz]; rfl)
      rw [List.dropWhile_cons_of_neg (by simp [ha])]
  rw [h1]
  have h2 : z.reverse.dropWhile isSpace = z.reverse := by
    cases hz : z.reverse with
    | nil => rfl
    | cons a as =>
      have ha : isSpace a = false := h.2 a (by rw [hz]; rfl)
      rw [List.dropWhile_cons_of_neg (by simp [ha])]
  rw [h2, List.reverse_reverse]

/-- On input whose characters are all in the allowed set, `clean_text`
reduces to whitespace collapsing plus stripping: the tag/URL/email passes
and the final filter are the identity. -/
theorem clean_of_allowed (y : String) (hall : ∀ c ∈ y.data, isAllowed c = true) :
    (clean_text y).data = pyStripL (collapseWs y.data) := by
  have hlt : ∀ c ∈ y.data, c ≠ '<' := by
    intro c hc he
    have := hall c hc
    rw [he] at this
    simp [isAllowed, isWordChar, isSpace] at this
  have hsl : ∀ c ∈ y.data, c ≠ '/' := by
    intro c hc he
    have := hall c hc
    rw [he] at this
    simp [isAllowed, isWordChar, isSpace] at this
  have hat : ∀ c ∈ y.data, c ≠ '@' := by
    intro c hc he
    have := hall c hc
    rw [he] at this
    simp [isAllowed, isWordChar, isSpace] at this
  have htags : removeTags y.data = y.data := rtAux_id y.data hlt
  have hurls : removeUrls y.data = y.data := ruF_id y.data.length y.data hsl
  have hmails : removeEmails y.data = y.data := by
    have := reAux_id y.data hat [] (by intro d hd; cases hd)
    simpa [removeEmails] using this
  by_cases hy : y = ""
  · subst hy
    rfl
  · have hct : clean_text y = ⟨cleanL y.data⟩ := by
      unfold clean_text
      rw [if_neg hy]
    rw [hct]
    show cleanL y.data = _
    unfold cleanL
    rw [show removeTags y.data = y.data from htags, hurls, hmails]
    apply List.filter_eq_self.mpr
    intro c hc
    rcases cw_mem _ false c (strip_subset _ c hc) with hmem | hsp
    · exact hall c hmem
    · rw [hsp]
      decide

/-- A string in whitespace normal form, with no edge whitespace and only
allowed characters, is a fixed point of `clean_text`. -/
theorem clean_fixed (z : String) (hall : ∀ c ∈ z.data, isAllowed c = true)
    (hws : WSClean z.data) (hedge : NoEdgeSpace z.data) : clean_text z = z := by
  by_cases hz : z = ""
  · rw [hz]
    rfl
  · have hdata : (clean_text z).data = z.data := by
      rw [clean_of_allowed z hall]
      show pyStripL (cwAux z.data false) = z.data
      rw [cw_fix z.data hws, strip_fix z.data hedge]
    have : clean_text z = ⟨z.data⟩ := by
      rw [← hdata]
    rw [this]

/-- C2 (amended): a single `clean` is not idempotent, but two are — the
composite `clean ∘ clean` is a projection, i.e. applying `clean` a third
time changes nothing. -/
theorem clean_text_twice_idempotent (s : String) :
    clean_text (clean_text (clean_text s)) = clean_text (clean_text s) := by
  set y := clean_text s with hy
  have hally : ∀ c ∈ y.data, isAllowed c = true := clean_allAllowed s
  have hdata : (clean_text y).data = pyStripL (collapseWs y.data) := clean_of_allowed y hally
  apply clean_fixed
  · exact clean_allAllowed y
  · rw [hdata]
    exact strip_wsclean _ (cw_wsclean y.data false)
  · rw [hdata]
    exact strip_noEdge _

/-- C2 counterexample: `clean` is not idempotent as claimed.  On `"a # b"`
the first pass deletes `#` after whitespace was already collapsed, leaving
`"a  b"` with a double space; the second pass collapses it to `"a b"`. -/
theorem clean_text_not_idempotent_cex :
    clean_text (clean_text "a # b") ≠ clean_text "a # b" ∧
    clean_text "a # b" = "a  b" ∧ clean_text (clean_text "a # b") = "a b" := by
  refine ⟨?_, by decide, by decide⟩
  decide

/-! ## NewsSummarizer (ai_services.py lines 127-221) -/

/-- The fixed sentinel returned when the input is falsy or no generative
collaborator is loaded. -/
def UNABLE : String := "Unable to generate summary."

/-- `NewsSummarizer._extractive_summary` (ai_services.py lines 198-221).
`sentTok` models the NLTK `sent_tokenize` collaborator (it may raise, which
the inner `try` turns into the 200-character-prefix fallback).  Sentence
scores `len(sentence.split()) + (len(sentences) - i) * 0.1` are represented
scaled by 10 (`10*wordCount + (n - i)`, all values nonnegative integers),
which preserves the exact comparison order of the Python formula; the
stable descending sort models `list.sort(key=..., reverse=True)`. -/
def extractive_summary (sentTok : String → Except Unit (List String))
    (text : String) (max_sentences : Nat) : String :=
  match sentTok text with
  | .error _ => if 200 < text.length then (⟨text.data.take 200⟩ : String) ++ "..." else text
  | .ok sentences =>
    if sentences.length ≤ max_sentences then text
    else
      joinWords
        (((sortByDesc (fun q => q.1)
          (sentences.enum.map
            (fun p => (10 * (pySplit p.2).length + (sentences.length - p.1), p.2)))).take
              max_sentences).map (fun q => q.2))

/-- `NewsSummarizer.summarize` (ai_services.py lines 163-196).
`genPipe` models `self.summarizer_pipeline` (`none` when no model loaded);
on success the collaborator receives the (possibly 1024-word-truncated)
stripped text with `max_length`/`min_length`; any exception falls back to
`self._extractive_summary(text, max_length)` — note the source passes
`max_length` into the `max_sentences` parameter. -/
def summarize (genPipe : Option (String → Nat → Nat → Except Unit String))
    (sentTok : String → Except Unit (List String))
    (text : String) (max_length min_length : Nat) : String :=
  match genPipe with
  | none => UNABLE
  | some gen =>
    if text = "" then UNABLE
    else
      if (pySplit (pyStrip text)).length < 10 then pyStrip text
      else
        match gen (if 1024 < (pySplit (pyStrip text)).length
            then joinWords ((pySplit (pyStrip text)).take 1024)
            else pyStrip text) max_length min_length with
        | .ok s => pyStrip s
        | .error _ => extractive_summary sentTok text max_length

/-- C4 (amended): when the generative collaborator is loaded and the text is
nonempty, a text of fewer than 10 whitespace-split words is returned as
`text.strip()` unchanged; an empty text or a missing collaborator instead
yields the fixed sentinel (step 1 of §4.3 takes precedence). -/
theorem summarize_short_text_spec
    (gen : String → Nat → Nat → Except Unit String)
    (sentTok : String → Except Unit (List String))
    (text : String) (max_length min_length : Nat) :
    (text ≠ "" → (pySplit text).length < 10 →
      summarize (some gen) sentTok text max_length min_length = pyStrip text) ∧
    summarize none sentTok text max_length min_length = UNABLE ∧
    summarize (some gen) sentTok "" max_length min_length = UNABLE := by
  refine ⟨?_, rfl, rfl⟩
  intro hne hlen
  show (if text = "" then UNABLE else _) = pyStrip text
  rw [if_neg hne]
  have h10 : (pySplit (pyStrip text)).length < 10 := by
    rw [pySplit_pyStrip]
    exact hlen
  rw [if_pos h10]

/-- Witness for C4's amended claim at a concrete short text. -/
theorem summarize_short_text_spec_witness :
    summarize (some fun _ _ _ => .ok "model output") (fun _ => .ok [])
      " AI is changing the world " 150 50 = pyStrip " AI is changing the world " :=
  (summarize_short_text_spec (fun _ _ _ => .ok "model output") (fun _ => .ok [])
    " AI is changing the world " 150 50).1 (by decide) (by decide)

/-- C4 counterexample: the claim fails as stated for every text.  The empty
string has word count 0 < 10, yet `summarize` returns the sentinel, not
`"".strip()`; likewise any short text with no collaborator loaded yields the
sentinel. -/
theorem summarize_short_text_cex :
    (pySplit "").length < 10 ∧
    summarize (some fun _ _ _ => .ok "model output") (fun _ => .ok []) "" 150 50 = UNABLE ∧
    UNABLE ≠ pyStrip "" ∧
    summarize none (fun _ => .ok []) "short text" 150 50 = UNABLE ∧
    UNABLE ≠ pyStrip "short text" := by
  exact ⟨by decide, rfl, by decide, rfl, by decide⟩

/-- Five-sentence tokenizer fixture for the C1 analysis. -/
def tok5 : String → Except Unit (List String) :=
  fun _ => .ok ["One a b c.", "Two d.", "Three e.", "Four f.", "Five g."]

/-- Always-failing generative collaborator (models a transformers error). -/
def genFail : String → Nat → Nat → Except Unit String := fun _ _ _ => .error ()

/-- A ten-word input, long enough to reach the generation attempt. -/
def text10 : String := "w1 w2 w3 w4 w5 w6 w7 w8 w9 w10"

/-- C1 (code bug): on the fallback path after a generative-collaborator
error, `summarize` calls `self._extractive_summary(text, max_length)`,
passing the character/token budget `max_length` (default 150) into the
`max_sentences` parameter (whose declared default is 3).  With 5 sentences
the claimed behavior is to return exactly 3 top-scored sentences, but the
code compares `5 <= 150` and returns the original text unchanged.  The
second conjunct evaluates `_extractive_summary` with the documented
threshold 3 on the same input, exhibiting the claimed output. -/
theorem summarize_fallback_threshold_bug :
    summarize (some genFail) tok5 text10 150 50 = text10 ∧
    extractive_summary tok5 text10 3 = "One a b c. Two d. Three e." ∧
    extractive_summary tok5 text10 3 ≠ text10 := by
  exact ⟨by decide, by decide, by decide⟩

/-! ## batch_process (app.py lines 114-165) -/

/-- An item of the request's `articles` array: an optional `text` field and
an optional `title` field. -/
structure Article where
  text : Option String
  title : Option String

/-- A per-article outcome record: the full result dict
`{title, summary, sentiment, word_count}` or the error dict
`{title, error}`. -/
inductive Outcome where
  | success (title summary : String) (sentiment : SentimentResult) (word_count : Nat)
  | failure (title err : String)
deriving DecidableEq

/-- The `batch_process` response body
`{processed_count, total_count, results}`. -/
structure BatchResponse where
  processed_count : Nat
  total_count : Nat
  results : List Outcome
deriving DecidableEq

/-- `article.get('title', f'Article {i+1}')`. -/
def articleTitle (i : Nat) (a : Article) : String :=
  a.title.getD ("Article " ++ toString (i + 1))

/-- The body of the loop for one article with a `text` field.  `proc`
abstracts the per-item pipeline (`clean_text`, `summarize`, `analyze` on
the cleaned text) and may raise, in which case the handler appends the
error record with the same title. -/
def processOne (proc : String → Except String (String × SentimentResult))
    (i : Nat) (a : Article) (t : String) : Outcome :=
  match proc t with
  | .ok (summary, sres) => .success (articleTitle i a) summary sres (pySplit t).length
  | .error e => .failure (articleTitle i a) e

/-- The `for i, article in enumerate(articles)` loop of `batch_process`:
articles without a `text` field are skipped by `continue` (producing no
record at all); all others append exactly one record. -/
def batchLoop (proc : String → Except String (String × SentimentResult)) :
    Nat → List Article → List Outcome
  | _, [] => []
  | i, a :: rest =>
    match a.text with
    | none => batchLoop proc (i + 1) rest
    | some t => processOne proc i a t :: batchLoop proc (i + 1) rest

/-- `batch_process` (app.py lines 114-165): the response reports
`processed_count = len(results)` and `total_count = len(articles)` (there is
no `skipped_count` field in the source). -/
def batch_process (proc : String → Except String (String × SentimentResult))
    (articles : List Article) : BatchResponse :=
  ⟨(batchLoop proc 0 articles).length, articles.length, batchLoop proc 0 articles⟩

theorem batchLoop_enumFrom (proc : String → Except String (String × SentimentResult)) :
    ∀ (articles : List Article) (i : Nat),
      batchLoop proc i articles =
        (articles.enumFrom i).filterMap
          (fun p => p.2.text.map (fun t => processOne proc p.1 p.2 t)) := by
  intro articles
  induction articles with
  | nil => intro i; rfl
  | cons a rest ih =>
    intro i
    cases ht : a.text with
    | none =>
      simp only [batchLoop, ht, List.enumFrom, List.filterMap_cons, ht, Option.map_none']
      exact ih (i + 1)
    | some t =>
      simp only [batchLoop, ht, List.enumFrom, List.filterMap_cons, ht, Option.map_some']
      rw [ih (i + 1)]

theorem batchLoop_count (proc : String → Except String (String × SentimentResult)) :
    ∀ (articles : List Article) (i : Nat),
      (batchLoop proc i articles).length
        + (articles.filter (fun a => a.text.isNone)).length = articles.length := by
  intro articles
  induction articles with
  | nil => intro i; rfl
  | cons a rest ih =>
    intro i
    cases ht : a.text with
    | none =>
      simp only [batchLoop, ht, List.filter_cons, Option.isNone_none, if_true,
        List.length_cons]
      have := ih (i + 1)
      omega
    | some t =>
      simp only [batchLoop, ht, List.filter_cons, Option.isNone_some, List.length_cons]
      have := ih (i + 1)
      simp only [Bool.false_eq_true, if_false]
      omega

/-- C3 (amended): each input article that has a `text` field yields exactly
one outcome — a full result record on success, an error record with the
article's title and message on failure — in input order; articles without a
`text` field are silently skipped with no outcome and no error record; the
response carries `processed_count = number of outcomes` and
`total_count = number of input articles` (no `skipped_count` field exists),
so `processed_count + (number of articles lacking a text field) =
total_count`. -/
theorem batch_process_outcomes_spec
    (proc : String → Except String (String × SentimentResult))
    (articles : List Article) :
    (batch_process proc articles).processed_count =
      (batch_process proc articles).results.length ∧
    (batch_process proc articles).total_count = articles.length ∧
    (batch_process proc articles).results.length
      + (articles.filter (fun a => a.text.isNone)).length = articles.length ∧
    (batch_process proc articles).results =
      articles.enum.filterMap
        (fun p => p.2.text.map (fun t => processOne proc p.1 p.2 t)) :=
  ⟨rfl, rfl, batchLoop_count proc articles 0, batchLoop_enumFrom proc articles 0⟩

/-- Per-item pipeline fixture that always succeeds. -/
def procOk : String → Except String (String × SentimentResult) :=
  fun _ => .ok ("summary", neutralResult)

/-- C3 counterexample: an article without a `text` field produces no
outcome at all (neither a result nor an error record), so the batch result
does not have one outcome per input article, and the response exposes no
`skipped_count` — `processed_count` (= 0) alone does not account for the
lone input article (`total_count` = 1). -/
theorem batch_process_missing_text_cex :
    (batch_process procOk [⟨none, some "T"⟩]).results.length = 0 ∧
    (batch_process procOk [⟨none, some "T"⟩]).total_count = 1 ∧
    (batch_process procOk [⟨none, some "T"⟩]).results.length ≠
      ([(⟨none, some "T"⟩ : Article)]).length :=
  ⟨rfl, rfl, by decide⟩

/-! ## TextPreprocessor.extract_keywords (ai_services.py lines 75-109) -/

/-- The distinct elements of a list in first-seen order: the key order of a
Python `collections.Counter` built by insertion (dicts preserve insertion
order). -/
def uniqueFirstAux : List String → List String → List String
  | [], _ => []
  | x :: xs, seen =>
    if x ∈ seen then uniqueFirstAux xs seen else x :: uniqueFirstAux xs (x :: seen)

/-- The `(element, count)` items of `Counter(l)` in first-seen order. -/
def counterItems (l : List String) : List (String × Nat) :=
  (uniqueFirstAux l []).map (fun w => (w, l.count w))

/-- `Counter(l).most_common(n)`: the `n` highest-count elements, ties broken
by first-seen order (`heapq.nlargest` is documented as equivalent to
`sorted(..., reverse=True)[:n]`, a stable descending sort). -/
def mostCommon (n : Nat) (l : List String) : List String :=
  ((sortByDesc (fun p => p.2) (counterItems l)).take n).map (fun p => p.1)

/-- A spaCy token as consumed by the primary keyword path: `token.text`,
`token.lemma_`, `token.pos_`, `token.is_stop`, `token.is_punct`. -/
structure SpacyToken where
  text : String
  lemma_ : String
  pos : String
  is_stop : Bool
  is_punct : Bool

/-- `TextPreprocessor.extract_keywords` (ai_services.py lines 75-109).
`nlp` models `self.nlp` (the spaCy collaborator, `none` when unavailable);
`stop_words` models `self.stop_words` (the NLTK English stopword list). -/
def extract_keywords (nlp : Option (String → List SpacyToken))
    (stop_words : List String) (text : String) (max_keywords : Nat) : List String :=
  if text = "" then []
  else
    match nlp with
    | some nlpF =>
      mostCommon max_keywords
        (((nlpF (clean_text text)).filter (fun tok =>
            (tok.pos == "NOUN" || tok.pos == "PROPN" || tok.pos == "ADJ") &&
            !tok.is_stop && !tok.is_punct && decide (2 < tok.text.length))).map
          (fun tok => pyLower tok.lemma_))
    | none =>
      mostCommon max_keywords
        ((pySplit (pyLower (clean_text text))).filter
          (fun w => !(stop_words.contains w) && decide (2 < w.length)))

theorem insertByDesc_mem {α : Type} (key : α → Nat) (x : α) (l : List α) :
    ∀ y ∈ insertByDesc key x l, y = x ∨ y ∈ l := by
  induction l with
  | nil =>
    intro y hy
    rcases List.mem_cons.mp hy with rfl | hy
    · exact Or.inl rfl
    · cases hy
  | cons a as ih =>
    intro y hy
    simp only [insertByDesc] at hy
    split at hy
    · rcases List.mem_cons.mp hy with rfl | hy
      · exact Or.inl rfl
      · exact Or.inr hy
    · rcases List.mem_cons.mp hy with rfl | hy
      · exact Or.inr (List.mem_cons_self _ _)
      · rcases ih y hy with h | h
        · exact Or.inl h
        · exact Or.inr (List.mem_cons_of_mem a h)

theorem sortByDesc_mem {α : Type} (key : α → Nat) (l : List α) :
    ∀ y ∈ sortByDesc key l, y ∈ l := by
  induction l with
  | nil => intro y hy; cases hy
  | cons a as ih =>
    intro y hy
    simp only [sortByDesc] at hy
    rcases insertByDesc_mem key a (sortByDesc key as) y hy with rfl | hy
    · exact List.mem_cons_self _ _
    · exact List.mem_cons_of_mem a (ih y hy)

theorem uniqueFirstAux_subset (l : List String) :
    ∀ seen, ∀ w ∈ uniqueFirstAux l seen, w ∈ l := by
  induction l with
  | nil => intro seen w hw; cases hw
  | cons x xs ih =>
    intro seen w hw
    simp only [uniqueFirstAux] at hw
    split at hw
    · exact List.mem_cons_of_mem x (ih seen w hw)
    · rcases List.mem_cons.mp hw with rfl | hw
      · exact List.mem_cons_self _ _
      · exact List.mem_cons_of_mem x (ih (x :: seen) w hw)

theorem mostCommon_length_le (n : Nat) (l : List String) :
    (mostCommon n l).length ≤ n := by
  unfold mostCommon
  rw [List.length_map]
  exact List.length_take_le n _

theorem mostCommon_subset (n : Nat) (l : List String) :
    ∀ w ∈ mostCommon n l, w ∈ l := by
  intro w hw
  unfold mostCommon at hw
  obtain ⟨p, hp, hpw⟩ := List.mem_map.mp hw
  have hp2 : p ∈ sortByDesc (fun p => p.2) (counterItems l) := List.take_subset _ _ hp
  have hp3 : p ∈ counterItems l := sortByDesc_mem _ _ p hp2
  obtain ⟨w', hw', hw'p⟩ := List.mem_map.mp hp3
  have : w' ∈ l := uniqueFirstAux_subset l [] w' hw'
  rw [← hpw, ← hw'p]
  exact this

/-- C9: `extract_keywords` returns at most `max_keywords` keywords in
either mode, and in fallback mode (spaCy unavailable) no returned token is
in the stopword set or has length 2 or less. -/
theorem extract_keywords_bounds (nlp : Option (String → List SpacyToken))
    (stop_words : List String) (text : String) (max_keywords : Nat) :
    (extract_keywords nlp stop_words text max_keywords).length ≤ max_keywords ∧
    ∀ w ∈ extract_keywords none stop_words text max_keywords,
      ¬ w ∈ stop_words ∧ 2 < w.length := by
  constructor
  · unfold extract_keywords
    split
    · simp
    · cases nlp with
      | none => exact mostCommon_length_le _ _
      | some nlpF => exact mostCommon_length_le _ _
  · intro w hw
    unfold extract_keywords at hw
    split at hw
    · cases hw
    · have hmem := mostCommon_subset _ _ w hw
      have hfil := List.mem_filter.mp hmem
      have hcond := hfil.2
      simp only [Bool.and_eq_true, Bool.not_eq_true', decide_eq_true_eq] at hcond
      refine ⟨?_, hcond.2⟩
      intro hws
      have : stop_words.contains w = true := List.elem_iff.mpr hws
      rw [this] at hcond
      exact absurd hcond.1 (by decide)

/-- Witness for C9 at a concrete fallback-mode input: the result respects
the bound and the concrete keyword `"cat"` (a member of the output) is not
a stopword and is longer than 2 characters. -/
theorem extract_keywords_bounds_witness :
    (extract_keywords none ["the"] "the cat ran far away" 3).length ≤ 3 ∧
    (¬ "cat" ∈ ["the"] ∧ 2 < "cat".length) :=
  ⟨(extract_keywords_bounds none ["the"] "the cat ran far away" 3).1,
   (extract_keywords_bounds none ["the"] "the cat ran far away" 3).2 "cat" (by decide)⟩
